import Mathlib

/-!
Verification of the statrs core: factorial-family combinatorics
(`src/function/factorial.rs`) and Fisher's exact test for 2x2 contingency
tables (`src/stats_tests/fisher.rs`).

The Rust code computes with `f64`; this development embeds the code over
exact arithmetic: `u64` becomes `ℕ`, `f64` probability values become `ℚ`,
and `f64` logarithm/exponential values become `ℝ`.  The positive-infinity
sentinel of `factorial` is modelled by `⊤ : WithTop ℚ`.  The external
hypergeometric oracle and the external log-gamma function are not part of
the two source files; they are modelled from the spec (marked below).
A Rust `panic!` (the `unwrap` in `binary_search`, the `unwrap` in
`multinomial`) is modelled by `Option`, with `none` for the panic.
-/

namespace Statrs

/-! ## Combinatorics: `src/function/factorial.rs` -/

/-- `MAX_FACTORIAL`: the maximum factorial representable by a 64-bit float
without overflowing (`pub const MAX_FACTORIAL: usize = 170`). -/
def MAX_FACTORIAL : ℕ := 170

/-- `FCACHE`: the precomputed factorial cache, built by
`fcache[i] = fcache[i - 1] * i` from `fcache[0] = 1.0`.  Modelled as a
function on all of `ℕ` defined by that same recurrence; the Rust array
holds its values at indices `0..=170`. -/
def FCACHE : ℕ → ℚ
  | 0 => 1
  | i + 1 => FCACHE i * (i + 1)

/-- `factorial(x)`: cache lookup for `x ≤ 170`, `f64::INFINITY`
(modelled as `⊤`) for `x > 170`. -/
def factorial (x : ℕ) : WithTop ℚ :=
  if x ≤ MAX_FACTORIAL then ((FCACHE x : ℚ) : WithTop ℚ) else ⊤

/-- Modelled from the spec: the external log-gamma function
(`gamma::ln_gamma`), a total function consumed only as `ln_gamma(x + 1)`
to extend the log-factorial beyond the cache. -/
noncomputable def ln_gamma (x : ℝ) : ℝ := Real.log (Real.Gamma x)

/-- `ln_factorial(x)`: `fcache[x].ln()` for `x ≤ 170`, otherwise
`gamma::ln_gamma(x as f64 + 1.0)`. -/
noncomputable def ln_factorial (x : ℕ) : ℝ :=
  if x ≤ MAX_FACTORIAL then Real.log ((FCACHE x : ℚ) : ℝ) else ln_gamma ((x : ℝ) + 1)

/-- `checked_multinomial(n, ni)`: folds `(acc.0 + x, acc.1 - ln_factorial(x))`
over `ni` starting from `(0, ln_factorial(n))`; returns `None` when the
accumulated sum differs from `n`, otherwise `Some((0.5 + ret.exp()).floor())`. -/
noncomputable def checked_multinomial (n : ℕ) (ni : List ℕ) : Option ℝ :=
  let p := ni.foldl (fun acc x => (acc.1 + x, acc.2 - ln_factorial x)) ((0 : ℕ), ln_factorial n)
  if p.1 = n then some ((⌊(0.5 : ℝ) + Real.exp p.2⌋ : ℤ) : ℝ) else none

/-- `multinomial(n, ni) = checked_multinomial(n, ni).unwrap()`.  The panic of
`unwrap` on `None` is modelled by propagating the `none`. -/
noncomputable def multinomial (n : ℕ) (ni : List ℕ) : Option ℝ :=
  checked_multinomial n ni

/-! ## Fisher's exact test: `src/stats_tests/fisher.rs` -/

/-- `super::Alternative`: the alternative-hypothesis selector. -/
inductive Alternative where
  | Less
  | Greater
  | TwoSided

/-- Modelled from the spec: the typed validation error of the external
hypergeometric oracle (`HypergeometricError`), raised when successes or
draws exceed the population. -/
inductive HypergeometricError where
  | TooManySuccesses
  | TooManyDraws
  deriving DecidableEq

/-- Modelled from the spec: the external hypergeometric oracle, constructed
from `(population, successes, draws)`. -/
structure Hypergeometric where
  population : ℕ
  successes : ℕ
  draws : ℕ

/-- Modelled from the spec: `Hypergeometric::new` fails with a typed error
if successes or draws exceed the population, and otherwise stores the
three parameters. -/
def Hypergeometric.new (population successes draws : ℕ) :
    Except HypergeometricError Hypergeometric :=
  if population < successes then .error .TooManySuccesses
  else if population < draws then .error .TooManyDraws
  else .ok ⟨population, successes, draws⟩

/-- Modelled from the spec: the oracle's probability mass function for the
count of successes among `draws` draws without replacement from a population
of size `population` containing `successes` successes, in exact rational
arithmetic.  Outside the support the pmf is `0` (the `Nat.choose` factors
vanish below the support; the explicit guard handles `x > draws`). -/
def Hypergeometric.pmf (d : Hypergeometric) (x : ℕ) : ℚ :=
  if d.draws < x then 0
  else ((d.successes.choose x * (d.population - d.successes).choose (d.draws - x) : ℕ) : ℚ) /
    ((d.population.choose d.draws : ℕ) : ℚ)

/-- Modelled from the spec: the oracle's cumulative distribution function,
`cdf(x) = Σ_{k ≤ x} pmf(k)`. -/
def Hypergeometric.cdf (d : Hypergeometric) (x : ℕ) : ℚ :=
  ∑ k ∈ Finset.range (x + 1), d.pmf k

/-- `const EPSILON: f64 = 1.0 - 1e-4` (exact rational value). -/
def EPSILON : ℚ := 1 - 1 / 10000

/-- The test `p < p_exact * epsilon` (a pmf value lies strictly below the
multiplicative acceptance band): the continue-condition of the decrement
settle loop in the upper tail and of the increment settle loop in the
lower tail of `binary_search`. -/
def below_band (p_exact epsilon p : ℚ) : Bool :=
  decide (p < p_exact * epsilon)

/-- The test `p > p_exact / epsilon` (a pmf value lies strictly above the
multiplicative acceptance band): the continue-condition of the increment
settle loop in the upper tail and of the decrement settle loop in the lower
tail of `binary_search`, and the test of the two no-search early returns of
`fishers_exact`. -/
def above_band (p_exact epsilon p : ℚ) : Bool :=
  decide (p_exact / epsilon < p)

/-- The mode short-circuit test of the two-sided branch:
`(p_exact - p_mode).abs() / p_exact.max(p_mode) <= 1.0 - EPSILON`. -/
def mode_short_circuit (p_exact p_mode : ℚ) : Bool :=
  decide (|p_exact - p_mode| / max p_exact p_mode ≤ 1 - EPSILON)

/-- The guess update of the bisection loop in `binary_search`:
forced to `max_val` when the interval has narrowed to adjacent values and
the previous guess was `min_val`, otherwise the bisecting midpoint. -/
def bisect_guess (minV maxV guess : ℕ) : ℕ :=
  if maxV == minV + 1 && guess == minV then maxV else (maxV + minV) / 2

/-- The bisection loop of `binary_search`, with explicit fuel (the Rust
`loop` terminates because the interval shrinks; all theorems below hold for
every fuel).  State: `(min_val, max_val, guess)`.  The returned triple is
`(guess, min_val, forced)` where `forced` instruments whether the
forced-to-`max_val` branch of `bisect_guess` was ever taken. -/
def bisect (f : ℕ → ℚ) (p_exact : ℚ) (upper : Bool) :
    ℕ → ℕ → ℕ → ℕ → Bool → ℕ × ℕ × Bool
  | 0, minV, _maxV, guess, forced => (guess, minV, forced)
  | fuel + 1, minV, maxV, guess, forced =>
    if maxV - minV ≤ 1 then (guess, minV, forced)
    else
      let force := maxV == minV + 1 && guess == minV
      let g := bisect_guess minV maxV guess
      let ng := if upper then g - 1 else g + 1
      let pmf_comp := f ng
      let p_guess := f g
      if p_guess ≤ p_exact ∧ p_exact < pmf_comp then (g, minV, forced || force)
      else if p_guess < p_exact then bisect f p_exact upper fuel minV g g (forced || force)
      else bisect f p_exact upper fuel g maxV g (forced || force)

/-- The decrementing settle loop of `binary_search`:
`while guess > 0 && cond (f guess) { guess -= 1 }`. -/
def settle_dec (f : ℕ → ℚ) (cond : ℚ → Bool) : ℕ → ℕ
  | 0 => 0
  | g + 1 => if cond (f (g + 1)) then settle_dec f cond g else g + 1

/-- The incrementing settle loop of `binary_search`:
`while cond (f guess) { guess += 1 }`, with explicit fuel (the Rust loop
terminates at the call sites because the pmf vanishes beyond the support;
all theorems below hold for every fuel). -/
def settle_inc (f : ℕ → ℚ) (cond : ℚ → Bool) : ℕ → ℕ → ℕ
  | 0, g => g
  | fuel + 1, g => if cond (f g) then settle_inc f cond fuel (g + 1) else g

/-- The body of `binary_search` after the `unwrap` of `Hypergeometric::new`
succeeded: starting interval `(mode, n)` for the upper tail and `(0, mode)`
for the lower tail, the bisection loop from `guess = 0`, the
`if guess == 0 { guess = min_val }` fallback, then the two settle loops of
the corresponding tail. -/
def bs_core (dist : Hypergeometric) (n mode : ℕ) (p_exact epsilon : ℚ) (upper : Bool) : ℕ :=
  let minV := if upper then mode else 0
  let maxV := if upper then n else mode
  let r := bisect dist.pmf p_exact upper (n + 2) minV maxV 0 false
  let guess := if r.1 = 0 then r.2.1 else r.1
  if upper then
    settle_inc dist.pmf (above_band p_exact epsilon) (n + 2)
      (settle_dec dist.pmf (below_band p_exact epsilon) guess)
  else
    settle_dec dist.pmf (above_band p_exact epsilon)
      (settle_inc dist.pmf (below_band p_exact epsilon) (n + 2) guess)

/-- `binary_search(n, n1, n2, mode, p_exact, epsilon, upper)`: constructs
`Hypergeometric::new(n1 + n2, n1, n).unwrap()` and runs the search.  The
panic of `unwrap` is modelled by `none`. -/
def binary_search (n n1 n2 mode : ℕ) (p_exact epsilon : ℚ) (upper : Bool) : Option ℕ :=
  match Hypergeometric.new (n1 + n2) n1 n with
  | .error _ => none
  | .ok dist => some (bs_core dist n mode p_exact epsilon upper)

/-- `FishersExactTestError`: wraps the oracle's validation error. -/
inductive FishersExactTestError where
  | TableInvalidForHypergeometric (inner : HypergeometricError)
  deriving DecidableEq

/-- The degenerate-table test of `fishers_exact` and
`fishers_exact_with_odds_ratio` for the table `[a, b, c, d]`: the Rust
match arms `[0, _, 0, _] | [_, 0, _, 0]` (a zero column) and
`[0, 0, _, _] | [_, _, 0, 0]` (a zero row), in source order. -/
def degenerate (a b c d : ℕ) : Bool :=
  (a == 0 && c == 0) || (b == 0 && d == 0) || (a == 0 && b == 0) || (c == 0 && d == 0)

/-- `fishers_exact(table, alternative)`: p-value of Fisher's exact test on
the 2x2 table `(a, b, c, d)` in row-major order.  The structure mirrors the
source: degenerate early return of `1.0`; the three alternatives fall
through to `Ok(p_value.min(1.0))`, while the two-sided branch has five
early returns that bypass that final clamp.  The `guess - 1` and
`table[0] - 1` subtractions are `ℕ` truncated subtraction; the safety
claims below show the subtrahends are at least `1` wherever they are
evaluated, matching the non-underflowing `u64` subtractions. -/
def fishers_exact (table : ℕ × ℕ × ℕ × ℕ) (alternative : Alternative) :
    Except FishersExactTestError ℚ :=
  let (a, b, c, d) := table
  if degenerate a b c d then .ok 1
  else
    let n1 := a + b
    let n2 := c + d
    let n := a + c
    let population := n1 + n2
    let successes := n1
    match alternative with
    | .Less =>
      match Hypergeometric.new population successes n with
      | .error e => .error (.TableInvalidForHypergeometric e)
      | .ok dist => .ok (min (dist.cdf a) 1)
    | .Greater =>
      match Hypergeometric.new population successes (b + d) with
      | .error e => .error (.TableInvalidForHypergeometric e)
      | .ok dist => .ok (min (dist.cdf b) 1)
    | .TwoSided =>
      match Hypergeometric.new population successes n with
      | .error e => .error (.TableInvalidForHypergeometric e)
      | .ok dist =>
        let p_exact := dist.pmf a
        let mode := ((n + 1) * (n1 + 1)) / (n1 + n2 + 2)
        let p_mode := dist.pmf mode
        if mode_short_circuit p_exact p_mode then .ok 1
        else if a < mode then
          let p_lower := dist.cdf a
          if above_band p_exact EPSILON (dist.pmf n) then .ok p_lower
          else
            let guess := (binary_search n n1 n2 mode p_exact EPSILON true).getD 0
            .ok (p_lower + 1 - dist.cdf (guess - 1))
        else
          let p_upper := 1 - dist.cdf (a - 1)
          if above_band p_exact EPSILON (dist.pmf 0) then .ok p_upper
          else
            let guess := (binary_search n n1 n2 mode p_exact EPSILON false).getD 0
            .ok (min (p_upper + dist.cdf guess) 1)

/-- The odds-ratio component of `fishers_exact_with_odds_ratio`, an `f64`
that is `NaN` for degenerate tables, `f64::INFINITY` when `b == 0 || c == 0`,
and `(a * d) / (b * c)` otherwise. -/
inductive Odds where
  | nan
  | inf
  | val (q : ℚ)

/-- `fishers_exact_with_odds_ratio(table, alternative)`: degenerate tables
return `(NaN, 1.0)`; otherwise the odds ratio is `(a*d)/(b*c)` when both
`b` and `c` are positive and `f64::INFINITY` otherwise, paired with the
p-value of `fishers_exact`. -/
def fishers_exact_with_odds_ratio (table : ℕ × ℕ × ℕ × ℕ) (alternative : Alternative) :
    Except FishersExactTestError (Odds × ℚ) :=
  let (a, b, c, d) := table
  if degenerate a b c d then .ok (.nan, 1)
  else
    let odds := if 0 < b ∧ 0 < c then Odds.val (((a * d : ℕ) : ℚ) / ((b * c : ℕ) : ℚ)) else Odds.inf
    match fishers_exact (a, b, c, d) alternative with
    | .error e => .error e
    | .ok p_value => .ok (odds, p_value)

/-! ## Basic facts about the modelled hypergeometric oracle -/

theorem Hypergeometric.new_ok {P S D : ℕ} (hS : S ≤ P) (hD : D ≤ P) :
    Hypergeometric.new P S D = .ok ⟨P, S, D⟩ := by
  unfold Hypergeometric.new
  rw [if_neg (by omega), if_neg (by omega)]

theorem Hypergeometric.pmf_nonneg (d : Hypergeometric) (x : ℕ) : 0 ≤ d.pmf x := by
  unfold pmf
  split
  · exact le_refl 0
  · positivity

theorem Hypergeometric.cdf_nonneg (d : Hypergeometric) (x : ℕ) : 0 ≤ d.cdf x :=
  Finset.sum_nonneg fun i _ => d.pmf_nonneg i

theorem Hypergeometric.cdf_mono (d : Hypergeometric) {x y : ℕ} (h : x ≤ y) :
    d.cdf x ≤ d.cdf y :=
  Finset.sum_le_sum_of_subset_of_nonneg
    (Finset.range_subset.2 (by omega)) (fun i _ _ => d.pmf_nonneg i)

theorem Hypergeometric.sum_pmf_eq_one (d : Hypergeometric)
    (hS : d.successes ≤ d.population) (hD : d.draws ≤ d.population) :
    ∑ k ∈ Finset.range (d.draws + 1), d.pmf k = 1 := by
  have hpos : 0 < d.population.choose d.draws := Nat.choose_pos hD
  have hsum : ∑ k ∈ Finset.range (d.draws + 1),
      d.successes.choose k * (d.population - d.successes).choose (d.draws - k)
      = d.population.choose d.draws := by
    have hv := Nat.add_choose_eq d.successes (d.population - d.successes) d.draws
    rw [Nat.add_sub_cancel' hS] at hv
    rw [hv, Finset.Nat.sum_antidiagonal_eq_sum_range_succ_mk]
  have hterm : ∀ k ∈ Finset.range (d.draws + 1), d.pmf k =
      ((d.successes.choose k * (d.population - d.successes).choose (d.draws - k) : ℕ) : ℚ) /
        ((d.population.choose d.draws : ℕ) : ℚ) := by
    intro k hk
    rw [Finset.mem_range] at hk
    unfold pmf
    rw [if_neg (by omega)]
  rw [Finset.sum_congr rfl hterm, ← Finset.sum_div, ← Nat.cast_sum, hsum]
  exact div_self (by exact_mod_cast hpos.ne')

theorem Hypergeometric.cdf_le_one (d : Hypergeometric)
    (hS : d.successes ≤ d.population) (hD : d.draws ≤ d.population) (x : ℕ) :
    d.cdf x ≤ 1 := by
  rcases le_or_lt x d.draws with hx | hx
  · calc d.cdf x ≤ d.cdf d.draws := d.cdf_mono hx
      _ = 1 := d.sum_pmf_eq_one hS hD
  · have : d.cdf x = ∑ k ∈ Finset.range (d.draws + 1), d.pmf k := by
      unfold cdf
      refine (Finset.sum_subset (Finset.range_subset.2 (by omega)) ?_).symm
      intro k _ hk
      rw [Finset.mem_range, not_lt] at hk
      unfold pmf
      rw [if_pos (by omega)]
    rw [this, d.sum_pmf_eq_one hS hD]

/-- The mode expression computed in the two-sided branch,
`((n + 1) * (n1 + 1)) / (n1 + n2 + 2)`, never exceeds the number of draws. -/
theorem Hypergeometric.mode_le_draws (d : Hypergeometric)
    (hS : d.successes ≤ d.population) :
    ((d.draws + 1) * (d.successes + 1)) / (d.population + 2) ≤ d.draws := by
  have h2 : 0 < d.population + 2 := by omega
  have h := (Nat.div_lt_iff_lt_mul h2).2
    (show (d.draws + 1) * (d.successes + 1) < (d.draws + 1) * (d.population + 2) from
      mul_lt_mul_of_pos_left (by omega) (by omega))
  exact Nat.lt_succ_iff.mp h

/-- The mode expression never exceeds the number of successes. -/
theorem Hypergeometric.mode_le_successes (d : Hypergeometric)
    (hD : d.draws ≤ d.population) :
    ((d.draws + 1) * (d.successes + 1)) / (d.population + 2) ≤ d.successes := by
  have h2 : 0 < d.population + 2 := by omega
  have hmul : (d.draws + 1) * (d.successes + 1) < (d.successes + 1) * (d.population + 2) := by
    calc (d.draws + 1) * (d.successes + 1)
        < (d.population + 2) * (d.successes + 1) :=
          mul_lt_mul_of_pos_right (by omega) (by omega)
      _ = (d.successes + 1) * (d.population + 2) := Nat.mul_comm _ _
  have h := (Nat.div_lt_iff_lt_mul h2).2 hmul
  exact Nat.lt_succ_iff.mp h

/-- One monotonicity step of the pmf below the computed mode: for
`k + 1 ≤ ((draws + 1) * (successes + 1)) / (population + 2)` the pmf is
nondecreasing from `k` to `k + 1`. -/
theorem Hypergeometric.pmf_step (d : Hypergeometric)
    (hS : d.successes ≤ d.population) (hD : d.draws ≤ d.population) {k : ℕ}
    (hk : k + 1 ≤ ((d.draws + 1) * (d.successes + 1)) / (d.population + 2)) :
    d.pmf k ≤ d.pmf (k + 1) := by
  obtain ⟨P, S, D⟩ := d
  simp only at hS hD hk ⊢
  have h2 : 0 < P + 2 := by omega
  have hmul : (k + 1) * (P + 2) ≤ (D + 1) * (S + 1) :=
    (Nat.le_div_iff_mul_le h2).1 hk
  have hkS : k < S := by
    have h := Hypergeometric.mode_le_successes ⟨P, S, D⟩ hD
    simp only at h
    have := hk.trans h
    omega
  have hkD : k < D := by
    have h := Hypergeometric.mode_le_draws ⟨P, S, D⟩ hS
    simp only at h
    have := hk.trans h
    omega
  have hchoose : S.choose k * (P - S).choose (D - k) ≤
      S.choose (k + 1) * (P - S).choose (D - k - 1) := by
    set M := P - S with hM
    rcases le_or_lt (D - k - 1) M with h3 | h3
    · -- the in-range case: compare via the ratio identities
      have id1 : S.choose (k + 1) * (k + 1) = S.choose k * (S - k) :=
        Nat.choose_succ_right_eq S k
      have id2 : M.choose (D - k) * (D - k) = M.choose (D - k - 1) * (M - (D - k - 1)) := by
        have h := Nat.choose_succ_right_eq M (D - k - 1)
        have hrw : D - k - 1 + 1 = D - k := by omega
        rw [hrw] at h
        exact h
      have key : (k + 1) * (M - (D - k - 1)) ≤ (D - k) * (S - k) := by
        have hMz : (M : ℤ) = (P : ℤ) - (S : ℤ) := by omega
        have hmulz : ((k : ℤ) + 1) * ((P : ℤ) + 2) ≤ ((D : ℤ) + 1) * ((S : ℤ) + 1) := by
          exact_mod_cast hmul
        zify [h3, le_of_lt hkS, le_of_lt hkD, show 1 ≤ D - k by omega, show k ≤ D by omega]
        rw [show ((D : ℤ) - (k : ℤ) - 1 : ℤ) = ((D : ℤ) - ((k : ℤ) + 1)) by ring] at *
        nlinarith [hmulz, hMz]
      have expand : S.choose k * M.choose (D - k) * ((k + 1) * (D - k)) ≤
          S.choose (k + 1) * M.choose (D - k - 1) * ((k + 1) * (D - k)) := by
        calc S.choose k * M.choose (D - k) * ((k + 1) * (D - k))
            = S.choose k * (M.choose (D - k) * (D - k)) * (k + 1) := by ring
          _ = S.choose k * (M.choose (D - k - 1) * (M - (D - k - 1))) * (k + 1) := by rw [id2]
          _ = S.choose k * M.choose (D - k - 1) * ((k + 1) * (M - (D - k - 1))) := by ring
          _ ≤ S.choose k * M.choose (D - k - 1) * ((D - k) * (S - k)) :=
              Nat.mul_le_mul_left _ key
          _ = S.choose k * (S - k) * M.choose (D - k - 1) * (D - k) := by ring
          _ = S.choose (k + 1) * (k + 1) * M.choose (D - k - 1) * (D - k) := by rw [id1]
          _ = S.choose (k + 1) * M.choose (D - k - 1) * ((k + 1) * (D - k)) := by ring
      have hposfac : 0 < (k + 1) * (D - k) := by
        have : 0 < D - k := by omega
        positivity
      exact Nat.le_of_mul_le_mul_right expand hposfac
    · -- beyond the support of the second factor: both sides vanish
      have hz1 : M.choose (D - k) = 0 := Nat.choose_eq_zero_of_lt (by omega)
      have hz2 : M.choose (D - k - 1) = 0 := Nat.choose_eq_zero_of_lt h3
      simp [hz1, hz2]
  unfold pmf
  simp only
  rw [if_neg (by omega), if_neg (by omega), show D - (k + 1) = D - k - 1 by omega]
  have hden : (0 : ℚ) < ((P.choose D : ℕ) : ℚ) := by
    exact_mod_cast Nat.choose_pos hD
  gcongr

/-! ## Invariants of the `binary_search` loops -/

/-- The decrementing settle loop never moves below a position `b` whose pmf
value fails the continue-condition. -/
theorem settle_dec_ge (f : ℕ → ℚ) (cond : ℚ → Bool) (b : ℕ)
    (hb : cond (f b) = false) :
    ∀ g, b ≤ g → b ≤ settle_dec f cond g := by
  intro g
  induction g with
  | zero => intro h; simpa [settle_dec] using h
  | succ g ih =>
    intro h
    unfold settle_dec
    by_cases hc : cond (f (g + 1)) = true
    · rw [if_pos hc]
      rcases Nat.eq_or_lt_of_le h with he | hlt
      · rw [← he] at hc
        rw [hb] at hc
        cases hc
      · exact ih (by omega)
    · rw [if_neg hc]
      exact h

/-- The incrementing settle loop never decreases the guess. -/
theorem settle_inc_ge (f : ℕ → ℚ) (cond : ℚ → Bool) :
    ∀ fuel g, g ≤ settle_inc f cond fuel g := by
  intro fuel
  induction fuel with
  | zero => intro g; simp [settle_inc]
  | succ fuel ih =>
    intro g
    unfold settle_inc
    split
    · exact le_trans (by omega) (ih (g + 1))
    · exact le_refl g

/-- When the bisection loop body runs (the `max_val - min_val <= 1` break
did not fire), the new guess exceeds `min_val` and the forcing condition of
`bisect_guess` is false: the guess is the bisecting midpoint. -/
theorem bisect_guess_of_break_not_taken (minV maxV guess : ℕ)
    (h : ¬ maxV - minV ≤ 1) :
    (maxV == minV + 1 && guess == minV) = false ∧
      bisect_guess minV maxV guess = (maxV + minV) / 2 ∧
      minV < bisect_guess minV maxV guess ∧ bisect_guess minV maxV guess ≤ maxV := by
  have h2 : minV + 2 ≤ maxV := by omega
  have hforce : (maxV == minV + 1 && guess == minV) = false := by
    rw [Bool.and_eq_false_iff]
    left
    rw [beq_eq_false_iff_ne]
    omega
  refine ⟨hforce, ?_, ?_, ?_⟩
  · unfold bisect_guess
    rw [hforce]
    rfl
  · unfold bisect_guess
    rw [hforce]
    simp only [Bool.false_eq_true, if_false]
    omega
  · unfold bisect_guess
    rw [hforce]
    simp only [Bool.false_eq_true, if_false]
    omega

/-- The instrumented forcing flag of the bisection loop is never set: the
special adjacent-interval branch of `bisect_guess` is dead code, because the
loop breaks before it whenever the interval has narrowed to adjacent values. -/
theorem bisect_forced_eq (f : ℕ → ℚ) (p_exact : ℚ) (upper : Bool) :
    ∀ fuel minV maxV guess forced,
      (bisect f p_exact upper fuel minV maxV guess forced).2.2 = forced := by
  cases upper <;>
  · intro fuel
    induction fuel with
    | zero => intro minV maxV guess forced; rfl
    | succ fuel ih =>
      intro minV maxV guess forced
      unfold bisect
      by_cases h1 : maxV - minV ≤ 1
      · rw [if_pos h1]
      · rw [if_neg h1]
        have hforce := (bisect_guess_of_break_not_taken minV maxV guess h1).1
        simp only [hforce, Bool.or_false]
        repeat' split
        all_goals first | rfl | exact ih _ _ _ _

/-- Lower-bound invariant of the bisection loop: if the bound `b` is below
`min_val` and below the current guess (or the guess is still the initial
`0`), the same holds of the result. -/
theorem bisect_lb (f : ℕ → ℚ) (p_exact : ℚ) (upper : Bool) (b : ℕ) :
    ∀ fuel minV maxV guess forced, b ≤ minV → (guess = 0 ∨ b ≤ guess) →
      b ≤ (bisect f p_exact upper fuel minV maxV guess forced).2.1 ∧
        ((bisect f p_exact upper fuel minV maxV guess forced).1 = 0 ∨
          b ≤ (bisect f p_exact upper fuel minV maxV guess forced).1) := by
  cases upper <;>
  · intro fuel
    induction fuel with
    | zero => intro minV maxV guess forced hmin hg; exact ⟨hmin, hg⟩
    | succ fuel ih =>
      intro minV maxV guess forced hmin hg
      unfold bisect
      by_cases h1 : maxV - minV ≤ 1
      · rw [if_pos h1]
        exact ⟨hmin, hg⟩
      · rw [if_neg h1]
        obtain ⟨-, -, hglb, -⟩ := bisect_guess_of_break_not_taken minV maxV guess h1
        have hbg : b ≤ bisect_guess minV maxV guess := by omega
        simp only
        repeat' split
        all_goals first
          | exact ⟨hmin, Or.inr hbg⟩
          | exact ih _ _ _ _ hmin (Or.inr hbg)
          | exact ih _ _ _ _ hbg (Or.inr hbg)

/-- Lower bound on the upper-tail `binary_search` result: if the pmf at a
position `b ≤ mode` already meets the lower edge of the acceptance band,
the search result is at least `b`. -/
theorem bs_core_lb (dist : Hypergeometric) (n mode : ℕ) (p_exact epsilon : ℚ) (b : ℕ)
    (hbm : b ≤ mode)
    (hband : below_band p_exact epsilon (dist.pmf b) = false) :
    b ≤ bs_core dist n mode p_exact epsilon true := by
  unfold bs_core
  simp only [if_pos rfl, if_true]
  obtain ⟨hmin, hg⟩ := bisect_lb dist.pmf p_exact true b (n + 2) mode n 0 false hbm (Or.inl rfl)
  have hguess : b ≤ if (bisect dist.pmf p_exact true (n + 2) mode n 0 false).1 = 0 then
      (bisect dist.pmf p_exact true (n + 2) mode n 0 false).2.1 else
      (bisect dist.pmf p_exact true (n + 2) mode n 0 false).1 := by
    split
    · exact hmin
    · rcases hg with h0 | hb
      · omega
      · exact hb
  have hdec := settle_dec_ge dist.pmf (below_band p_exact epsilon) b hband _ hguess
  exact le_trans hdec (settle_inc_ge dist.pmf (above_band p_exact epsilon) (n + 2) _)

/-! ## The tolerance band -/

theorem EPSILON_pos : (0 : ℚ) < EPSILON := by norm_num [EPSILON]

theorem EPSILON_le_one : EPSILON ≤ 1 := by norm_num [EPSILON]

/-- The relative-difference comparison of the mode short-circuit is the
multiplicative acceptance band, for nonnegative arguments. -/
theorem relative_diff_iff_band (x y : ℚ) (hx : 0 ≤ x) (hy : 0 ≤ y) :
    |x - y| / max x y ≤ 1 - EPSILON ↔ x * EPSILON ≤ y ∧ y ≤ x / EPSILON := by
  have heps0 : (0 : ℚ) < EPSILON := EPSILON_pos
  have heps1 : EPSILON ≤ 1 := EPSILON_le_one
  rcases le_total y x with hle | hle
  · rw [max_eq_left hle, abs_of_nonneg (by linarith)]
    rcases hx.lt_or_eq with hx0 | hx0
    · rw [div_le_iff₀ hx0]
      constructor
      · intro h
        refine ⟨by nlinarith, ?_⟩
        rw [le_div_iff₀ heps0]
        nlinarith
      · rintro ⟨h1, h2⟩
        nlinarith
    · have hy0 : y = 0 := le_antisymm (hx0 ▸ hle) hy
      rw [← hx0, hy0]
      norm_num [EPSILON]
  · rw [max_eq_right hle, abs_of_nonpos (by linarith), neg_sub]
    rcases hy.lt_or_eq with hy0 | hy0
    · rw [div_le_iff₀ hy0]
      constructor
      · intro h
        refine ⟨by nlinarith, ?_⟩
        rw [le_div_iff₀ heps0]
        nlinarith
      · rintro ⟨h1, h2⟩
        rw [le_div_iff₀ heps0] at h2
        nlinarith
    · have hx0 : x = 0 := le_antisymm (hy0 ▸ hle) hx
      rw [hx0, ← hy0]
      norm_num [EPSILON]

/-- Claim C2: in the two-sided test, the mode-equality short-circuit and the
crossing-band acceptance test of the binary search and its settle pass use
the same fixed relative `EPSILON`, applied multiplicatively: both accept a
pmf value `p` exactly when `p_exact * EPSILON ≤ p ∧ p ≤ p_exact / EPSILON`,
not within an additive tolerance. -/
theorem two_sided_tolerance_is_multiplicative_band (p_exact p_mode p : ℚ)
    (hpe : 0 ≤ p_exact) (hpm : 0 ≤ p_mode) :
    (mode_short_circuit p_exact p_mode = true ↔
      p_exact * EPSILON ≤ p_mode ∧ p_mode ≤ p_exact / EPSILON) ∧
    ((below_band p_exact EPSILON p = false ∧ above_band p_exact EPSILON p = false) ↔
      p_exact * EPSILON ≤ p ∧ p ≤ p_exact / EPSILON) := by
  constructor
  · rw [mode_short_circuit, decide_eq_true_eq]
    exact relative_diff_iff_band p_exact p_mode hpe hpm
  · rw [below_band, above_band, decide_eq_false_iff_not, decide_eq_false_iff_not,
      not_lt, not_lt]

/-- Claim C2 witness at `p_exact = p_mode = p = 1/2`. -/
theorem two_sided_tolerance_witness :
    (0 : ℚ) ≤ 1 / 2 ∧
    (mode_short_circuit (1 / 2) (1 / 2) = true ↔
      (1 / 2 : ℚ) * EPSILON ≤ 1 / 2 ∧ (1 / 2 : ℚ) ≤ (1 / 2 : ℚ) / EPSILON) :=
  ⟨by norm_num,
    (two_sided_tolerance_is_multiplicative_band (1 / 2) (1 / 2) (1 / 2)
      (by norm_num) (by norm_num)).1⟩

/-! ## The dead forcing branch of the bisection loop (claim C3) -/

/-- Claim C3 counterexample: the forced-to-`max_val` step of the bisection
loop is never executed on any input — starting from an unset instrumentation
flag, no run of the loop ever sets it, because the loop breaks whenever
`max_val - min_val ≤ 1` before the guess is computed. -/
theorem bisect_forcing_unreachable :
    ¬ ∃ (f : ℕ → ℚ) (p_exact : ℚ) (upper : Bool) (fuel minV maxV guess : ℕ),
      (bisect f p_exact upper fuel minV maxV guess false).2.2 = true := by
  rintro ⟨f, p_exact, upper, fuel, minV, maxV, guess, h⟩
  rw [bisect_forced_eq] at h
  cases h

/-- Claim C3 (amended): the adjacent-interval special case appears in the
guess update but is dead code — whenever the loop body computes a guess the
interval satisfies `max_val - min_val ≥ 2`, so the forcing condition is
false, the guess is the bisecting midpoint, and the instrumented forcing
flag of a full run never changes. -/
theorem bisect_forcing_dead_code (f : ℕ → ℚ) (p_exact : ℚ) (upper : Bool)
    (fuel minV maxV guess : ℕ) (forced : Bool) (h : ¬ maxV - minV ≤ 1) :
    (maxV == minV + 1 && guess == minV) = false ∧
    bisect_guess minV maxV guess = (maxV + minV) / 2 ∧
    (bisect f p_exact upper fuel minV maxV guess forced).2.2 = forced := by
  obtain ⟨h1, h2, -, -⟩ := bisect_guess_of_break_not_taken minV maxV guess h
  exact ⟨h1, h2, bisect_forced_eq f p_exact upper fuel minV maxV guess forced⟩

/-- Claim C3 (amended) witness at a concrete loop state. -/
theorem bisect_forcing_dead_code_witness :
    ¬ (5 : ℕ) - 0 ≤ 1 ∧
    ((5 : ℕ) == 0 + 1 && (0 : ℕ) == 0) = false ∧
    bisect_guess 0 5 0 = (5 + 0) / 2 ∧
    (bisect (fun _ => 0) 0 true 7 0 5 0 false).2.2 = false :=
  ⟨by omega, bisect_forcing_dead_code (fun _ => 0) 0 true 7 0 5 0 false (by omega)⟩

/-! ## Degenerate tables (claim C4) -/

/-- Claim C4: for every table in which some row or some column sums to zero
and every alternative, `fishers_exact` returns `Ok(1.0)` and
`fishers_exact_with_odds_ratio` returns `Ok((NaN, 1.0))`, independent of the
non-zero entries; the early return fires before any hypergeometric
distribution is constructed. -/
theorem degenerate_table_result (a b c d : ℕ) (alt : Alternative)
    (h : a + b = 0 ∨ c + d = 0 ∨ a + c = 0 ∨ b + d = 0) :
    fishers_exact (a, b, c, d) alt = .ok 1 ∧
      fishers_exact_with_odds_ratio (a, b, c, d) alt = .ok (.nan, 1) := by
  have hdeg : degenerate a b c d = true := by
    simp only [degenerate, Bool.or_eq_true, Bool.and_eq_true, beq_iff_eq]
    omega
  constructor
  · simp only [fishers_exact, hdeg, if_true]
  · simp only [fishers_exact_with_odds_ratio, hdeg, if_true]

/-- Claim C4 witness at the table `[0, 1, 0, 2]` (first column zero). -/
theorem degenerate_table_result_witness :
    ((0 : ℕ) + 1 = 0 ∨ (0 : ℕ) + 2 = 0 ∨ (0 : ℕ) + 0 = 0 ∨ (1 : ℕ) + 2 = 0) ∧
    fishers_exact (0, 1, 0, 2) .Less = .ok 1 ∧
      fishers_exact_with_odds_ratio (0, 1, 0, 2) .Less = .ok (.nan, 1) :=
  ⟨by omega, degenerate_table_result 0 1 0 2 .Less (by omega)⟩

/-! ## The one-sided branches (claim C5) -/

/-- Claim C5: for every non-degenerate table, the `Less` branch returns the
CDF at `a` of the hypergeometric distribution with population `n1 + n2`,
successes `n1`, draws `a + c`, and the `Greater` branch returns the CDF at
`b` of the hypergeometric distribution with draws `b + d`; the final
`min 1.0` cap leaves these CDF values unchanged. -/
theorem one_sided_p_value (a b c d : ℕ) (hdeg : degenerate a b c d = false) :
    fishers_exact (a, b, c, d) .Less =
      .ok ((Hypergeometric.mk ((a + b) + (c + d)) (a + b) (a + c)).cdf a) ∧
    fishers_exact (a, b, c, d) .Greater =
      .ok ((Hypergeometric.mk ((a + b) + (c + d)) (a + b) (b + d)).cdf b) := by
  constructor
  · simp only [fishers_exact, hdeg, Bool.false_eq_true, if_false]
    rw [Hypergeometric.new_ok (by omega) (by omega)]
    dsimp only
    rw [min_eq_left ((Hypergeometric.mk ((a + b) + (c + d)) (a + b) (a + c)).cdf_le_one
      (show a + b ≤ (a + b) + (c + d) by omega) (show a + c ≤ (a + b) + (c + d) by omega) a)]
  · simp only [fishers_exact, hdeg, Bool.false_eq_true, if_false]
    rw [Hypergeometric.new_ok (by omega) (by omega)]
    dsimp only
    rw [min_eq_left ((Hypergeometric.mk ((a + b) + (c + d)) (a + b) (b + d)).cdf_le_one
      (show a + b ≤ (a + b) + (c + d) by omega) (show b + d ≤ (a + b) + (c + d) by omega) b)]

/-- Claim C5 witness at the table `[1, 1, 1, 1]`. -/
theorem one_sided_p_value_witness :
    degenerate 1 1 1 1 = false ∧
    fishers_exact (1, 1, 1, 1) .Less = .ok ((Hypergeometric.mk 4 2 2).cdf 1) ∧
    fishers_exact (1, 1, 1, 1) .Greater = .ok ((Hypergeometric.mk 4 2 2).cdf 1) :=
  ⟨by decide, one_sided_p_value 1 1 1 1 (by decide)⟩

/-! ## Safety of the `unwrap` in `binary_search` (claim C9) -/

/-- Claim C9: for every table, `binary_search` constructs its hypergeometric
distribution from exactly the parameters `(n1 + n2, n1, n)` that
`fishers_exact` already validated, that construction always succeeds, and
the `unwrap` inside `binary_search` therefore never panics: the result is
always `some`. -/
theorem binary_search_unwrap_safe (a b c d mode : ℕ) (p_exact epsilon : ℚ) (upper : Bool) :
    Hypergeometric.new ((a + b) + (c + d)) (a + b) (a + c) =
      .ok ⟨(a + b) + (c + d), a + b, a + c⟩ ∧
    binary_search (a + c) (a + b) (c + d) mode p_exact epsilon upper =
      some (bs_core ⟨(a + b) + (c + d), a + b, a + c⟩ (a + c) mode p_exact epsilon upper) := by
  have hok := Hypergeometric.new_ok
    (show a + b ≤ (a + b) + (c + d) by omega) (show a + c ≤ (a + b) + (c + d) by omega)
  refine ⟨hok, ?_⟩
  unfold binary_search
  rw [hok]

/-! ## Factorial recurrence and saturation (claim C6) -/

/-- Claim C6: `factorial(0) = 1`; for every `1 ≤ x ≤ 170`, `factorial(x)`
equals `factorial(x - 1) * x` (the cache is built by exactly this
multiplication) and `ln_factorial(x)` equals `ln(factorial(x))` (the log of
the same cached value); and for every `x > 170`, `factorial(x)` returns
positive infinity rather than failing. -/
theorem factorial_props :
    factorial 0 = ((1 : ℚ) : WithTop ℚ) ∧
    (∀ x : ℕ, 1 ≤ x → x ≤ 170 →
      factorial x = factorial (x - 1) * (((x : ℚ)) : WithTop ℚ) ∧
      factorial x = ((FCACHE x : ℚ) : WithTop ℚ) ∧
      ln_factorial x = Real.log ((FCACHE x : ℚ) : ℝ)) ∧
    (∀ x : ℕ, 170 < x → factorial x = ⊤) := by
  refine ⟨?_, ?_, ?_⟩
  · rw [factorial, if_pos (by norm_num [MAX_FACTORIAL])]
    rfl
  · intro x h1 h170
    have hx : x ≤ MAX_FACTORIAL := by rw [MAX_FACTORIAL]; omega
    have hx1 : x - 1 ≤ MAX_FACTORIAL := by rw [MAX_FACTORIAL]; omega
    refine ⟨?_, ?_, ?_⟩
    · rw [factorial, factorial, if_pos hx, if_pos hx1, ← WithTop.coe_mul]
      congr 1
      obtain ⟨y, rfl⟩ : ∃ y, x = y + 1 := ⟨x - 1, by omega⟩
      show FCACHE (y + 1) = FCACHE (y + 1 - 1) * ((y + 1 : ℕ) : ℚ)
      rw [show y + 1 - 1 = y by omega, FCACHE]
      push_cast
      ring
    · rw [factorial, if_pos hx]
    · rw [ln_factorial, if_pos hx]
  · intro x h
    rw [factorial, if_neg (by rw [MAX_FACTORIAL]; omega)]

/-- Claim C6 witness at `x = 5` and `x = 171`. -/
theorem factorial_props_witness :
    ((1 : ℕ) ≤ 5 ∧ (5 : ℕ) ≤ 170 ∧ (170 : ℕ) < 171) ∧
    factorial 5 = factorial 4 * ((5 : ℚ) : WithTop ℚ) ∧
    ln_factorial 5 = Real.log ((FCACHE 5 : ℚ) : ℝ) ∧
    factorial 171 = ⊤ :=
  ⟨⟨by omega, by omega, by omega⟩,
    (factorial_props.2.1 5 (by omega) (by omega)).1,
    (factorial_props.2.1 5 (by omega) (by omega)).2.2,
    factorial_props.2.2 171 (by omega)⟩

/-! ## The multinomial sum check (claim C7) -/

/-- The first component of the `checked_multinomial` fold accumulates the
sum of the group sizes. -/
theorem multinomial_foldl_fst (ni : List ℕ) (s : ℕ) (r : ℝ) :
    (ni.foldl (fun acc x => (acc.1 + x, acc.2 - ln_factorial x)) (s, r)).1 = s + ni.sum := by
  induction ni generalizing s r with
  | nil => simp
  | cons hd tl ih =>
    rw [List.foldl_cons, List.sum_cons, ih]
    omega

/-- Claim C7: `checked_multinomial(n, ni)` returns `None` exactly when the
elements of `ni` do not sum to `n` (and `Some` of the coefficient
otherwise); `multinomial(n, ni)` panics (modelled as `none`) exactly in the
same case, the sum check being literally the one of the checked variant. -/
theorem multinomial_sum_check (n : ℕ) (ni : List ℕ) :
    (checked_multinomial n ni = none ↔ ni.sum ≠ n) ∧
    (multinomial n ni = none ↔ ni.sum ≠ n) ∧
    multinomial n ni = checked_multinomial n ni := by
  have hnone : checked_multinomial n ni = none ↔ ni.sum ≠ n := by
    rw [checked_multinomial]
    simp only [multinomial_foldl_fst, Nat.zero_add]
    by_cases h : ni.sum = n
    · rw [if_pos h]
      simp [h]
    · rw [if_neg h]
      simp [h]
  exact ⟨hnone, by rw [multinomial]; exact hnone, rfl⟩

/-! ## The two-sided branch: clamping and underflow safety (claims C1, C10) -/

/-- `binary_search` at the parameters derived from a table always takes its
`ok` branch. -/
theorem binary_search_eq (n1 n2 n mode : ℕ) (p_exact epsilon : ℚ) (upper : Bool)
    (h : n ≤ n1 + n2) :
    binary_search n n1 n2 mode p_exact epsilon upper =
      some (bs_core ⟨n1 + n2, n1, n⟩ n mode p_exact epsilon upper) := by
  unfold binary_search
  rw [Hypergeometric.new_ok (by omega) h]

/-- The upper-tail search started below the mode ends strictly above the
observed count: the settle loops cannot cross `x + 1`, whose pmf already
meets the band. -/
theorem upper_search_ge_core (P S D mode x : ℕ) (hS : S ≤ P) (hD : D ≤ P)
    (hmode : x + 1 ≤ mode) (hmode_le : mode ≤ ((D + 1) * (S + 1)) / (P + 2)) :
    x + 1 ≤ bs_core ⟨P, S, D⟩ D mode ((Hypergeometric.mk P S D).pmf x) EPSILON true := by
  have hstep : (Hypergeometric.mk P S D).pmf x ≤ (Hypergeometric.mk P S D).pmf (x + 1) :=
    (Hypergeometric.mk P S D).pmf_step hS hD (le_trans hmode hmode_le)
  have hband : below_band ((Hypergeometric.mk P S D).pmf x) EPSILON
      ((Hypergeometric.mk P S D).pmf (x + 1)) = false := by
    rw [below_band, decide_eq_false_iff_not, not_lt]
    calc (Hypergeometric.mk P S D).pmf x * EPSILON
        ≤ (Hypergeometric.mk P S D).pmf x :=
          mul_le_of_le_one_right ((Hypergeometric.mk P S D).pmf_nonneg x) EPSILON_le_one
      _ ≤ (Hypergeometric.mk P S D).pmf (x + 1) := hstep
  exact bs_core_lb _ D mode _ EPSILON (x + 1) hmode hband

/-- The short-circuit comparison always accepts two equal pmf values. -/
theorem mode_short_circuit_self (q : ℚ) : mode_short_circuit q q = true := by
  rw [mode_short_circuit, decide_eq_true_eq, sub_self, abs_zero, zero_div]
  norm_num [EPSILON]

/-- Claim C1: for every non-degenerate table and every alternative for which
`fishers_exact` returns `Ok(p)`, the p-value `p` is at most `1`, including
the values of the four early returns of the two-sided branch (mode
short-circuit, the two no-search returns, and the upper-tail return that
adds a tail mass after the binary search), which bypass the final `min 1.0`
clamp, and the lower-tail tail-mass value that flows through it. -/
theorem fishers_exact_p_le_one (a b c d : ℕ) (alt : Alternative) (p : ℚ)
    (hdeg : degenerate a b c d = false)
    (h : fishers_exact (a, b, c, d) alt = .ok p) : p ≤ 1 := by
  have hS : a + b ≤ (a + b) + (c + d) := by omega
  cases alt
  case Less =>
    simp only [fishers_exact, hdeg, Bool.false_eq_true, if_false] at h
    rw [Hypergeometric.new_ok hS (by omega)] at h
    dsimp only at h
    simp only [Except.ok.injEq] at h
    subst h
    exact min_le_right _ _
  case Greater =>
    simp only [fishers_exact, hdeg, Bool.false_eq_true, if_false] at h
    rw [Hypergeometric.new_ok hS (by omega)] at h
    dsimp only at h
    simp only [Except.ok.injEq] at h
    subst h
    exact min_le_right _ _
  case TwoSided =>
    simp only [fishers_exact, hdeg, Bool.false_eq_true, if_false] at h
    rw [Hypergeometric.new_ok hS (by omega)] at h
    dsimp only at h
    have hcdf_le := (Hypergeometric.mk ((a + b) + (c + d)) (a + b) (a + c)).cdf_le_one
      hS (show a + c ≤ (a + b) + (c + d) by omega)
    have hcdf_nn := (Hypergeometric.mk ((a + b) + (c + d)) (a + b) (a + c)).cdf_nonneg
    split at h
    · -- the mode short-circuit returns 1
      simp only [Except.ok.injEq] at h
      exact le_of_eq h.symm
    · split at h
      · -- a < mode
        rename_i hmode
        split at h
        · -- the no-search early return: p = cdf a
          simp only [Except.ok.injEq] at h
          subst h
          exact hcdf_le a
        · -- p = cdf a + 1 - cdf (guess - 1) with guess from the upper search
          rw [binary_search_eq (a + b) (c + d) (a + c) _ _ EPSILON true (by omega),
            Option.getD_some] at h
          simp only [Except.ok.injEq] at h
          subst h
          have hup := upper_search_ge_core ((a + b) + (c + d)) (a + b) (a + c)
            ((a + c + 1) * (a + b + 1) / (a + b + (c + d) + 2)) a
            hS (show a + c ≤ (a + b) + (c + d) by omega) hmode (le_refl _)
          have hmono := (Hypergeometric.mk ((a + b) + (c + d)) (a + b) (a + c)).cdf_mono
            (show a ≤ bs_core (Hypergeometric.mk ((a + b) + (c + d)) (a + b) (a + c)) (a + c)
              ((a + c + 1) * (a + b + 1) / (a + b + (c + d) + 2))
              ((Hypergeometric.mk ((a + b) + (c + d)) (a + b) (a + c)).pmf a)
              EPSILON true - 1 by omega)
          linarith
      · -- a ≥ mode
        split at h
        · -- the no-search early return: p = 1 - cdf (a - 1)
          simp only [Except.ok.injEq] at h
          subst h
          linarith [hcdf_nn (a - 1)]
        · -- the final fall-through value is clamped by min 1
          simp only [Except.ok.injEq] at h
          subst h
          exact min_le_right _ _

/-- Claim C1 witness: the two-sided mode short-circuit path at `[1,1,1,1]`. -/
theorem fishers_exact_p_le_one_witness :
    degenerate 1 1 1 1 = false ∧
    fishers_exact (1, 1, 1, 1) .TwoSided = .ok 1 ∧ (1 : ℚ) ≤ 1 :=
  ⟨by decide, by with_unfolding_all rfl,
    fishers_exact_p_le_one 1 1 1 1 .TwoSided 1 (by decide) (by with_unfolding_all rfl)⟩

/-- Claim C10: in the two-sided branch, both `u64` subtractions by one are
guarded.  (i) When `table[0] ≥ mode` and the mode short-circuit did not fire,
`table[0] ≥ 1`, so `table[0] - 1` cannot underflow; (ii) when
`table[0] < mode`, the upper-tail binary search returns `some g` with
`g ≥ 1`, so `guess - 1` cannot underflow. -/
theorem two_sided_no_underflow (a b c d : ℕ) (hdeg : degenerate a b c d = false) :
    (((a + c + 1) * (a + b + 1)) / (a + b + (c + d) + 2) ≤ a →
      mode_short_circuit ((Hypergeometric.mk ((a + b) + (c + d)) (a + b) (a + c)).pmf a)
        ((Hypergeometric.mk ((a + b) + (c + d)) (a + b) (a + c)).pmf
          (((a + c + 1) * (a + b + 1)) / (a + b + (c + d) + 2))) = false →
      1 ≤ a) ∧
    (a < ((a + c + 1) * (a + b + 1)) / (a + b + (c + d) + 2) →
      ∃ g, binary_search (a + c) (a + b) (c + d)
          (((a + c + 1) * (a + b + 1)) / (a + b + (c + d) + 2))
          ((Hypergeometric.mk ((a + b) + (c + d)) (a + b) (a + c)).pmf a) EPSILON true =
            some g ∧
        1 ≤ g) := by
  constructor
  · intro hmode hsc
    by_contra hlt
    have ha : a = 0 := by omega
    subst ha
    have hm0 : ((0 + c + 1) * (0 + b + 1)) / (0 + b + (c + d) + 2) = 0 :=
      Nat.le_zero.mp hmode
    rw [hm0, mode_short_circuit_self] at hsc
    cases hsc
  · intro hmode
    refine ⟨_, binary_search_eq (a + b) (c + d) (a + c) _ _ EPSILON true (by omega), ?_⟩
    have hup := upper_search_ge_core ((a + b) + (c + d)) (a + b) (a + c)
      ((a + c + 1) * (a + b + 1) / (a + b + (c + d) + 2)) a
      (by omega) (show a + c ≤ (a + b) + (c + d) by omega) hmode (le_refl _)
    omega

/-- Claim C10 witness at the table `[0, 2, 3, 1]` (observed count below the
mode, so the upper-tail search is exercised and returns a positive guess). -/
theorem two_sided_no_underflow_witness :
    degenerate 0 2 3 1 = false ∧
    ((0 : ℕ) < ((0 + 3 + 1) * (0 + 2 + 1)) / (0 + 2 + (3 + 1) + 2) ∧
      ∃ g, binary_search (0 + 3) (0 + 2) (3 + 1)
          (((0 + 3 + 1) * (0 + 2 + 1)) / (0 + 2 + (3 + 1) + 2))
          ((Hypergeometric.mk ((0 + 2) + (3 + 1)) (0 + 2) (0 + 3)).pmf 0) EPSILON true =
            some g ∧
        1 ≤ g) :=
  ⟨by decide, by norm_num,
    (two_sided_no_underflow 0 2 3 1 (by decide)).2 (by norm_num)⟩

end Statrs
